import Mathlib

/-!
Verification of the `ReturnMetrics` metrics accumulator
(src/src/return_metrics/return_metrics.py) against its specification.

The accumulator wraps an immutable table of per-asset return series
(`data`), an annualization factor, and a result table (`results`) that
grows by one column per statistic method.  Tables are embedded as
association lists from column name to the list of cell values, in column
order; a result cell is `Option ℚ` (`none` plays the role of a missing
value / NaN, e.g. an absent recovery date).  Rationals stand in for the
floating-point values of the source; the statistics involved in the
claims below (mean, quantile, CVaR, drawdown) are exact rational
computations, and the sole irrational-valued statistic under scrutiny
(`std`) is modelled separately over ℝ.

Row labels of the input table are the positions 0, 1, 2, … of the time
index, matching the integer index used by the specification scenarios;
integer-label slicing in `pandas` `Series.__getitem__` is positional and
end-exclusive, which is how `take`/`drop` are used below.
-/

/-- A cell of the result table: `none` models a missing value (NaN). -/
abbrev Cell := Option ℚ

/-- First-match lookup of a column by name in an association-list table,
mirroring column access on a `pandas` `DataFrame`. -/
def lookupCol {κ : Type} : List (String × κ) → String → Option κ
  | [], _ => none
  | p :: rest, c => if p.1 = c then some p.2 else lookupCol rest c

/-- The column names of an association-list table, in column order. -/
def keysOf {κ : Type} (rs : List (String × κ)) : List String :=
  rs.map Prod.fst

/-- How many columns of the table carry the given name. -/
def countKey {κ : Type} (rs : List (String × κ)) (c : String) : ℕ :=
  (keysOf rs).count c

/-- Model of `new_results[name] = series` on a `DataFrame`: overwrite the column in
place when the name exists (keeping its position), append it at the end
otherwise. -/
def setCol {κ : Type} (rs : List (String × κ)) (name : String) (v : κ) :
    List (String × κ) :=
  if name ∈ keysOf rs then
    rs.map (fun p => if p.1 = name then (name, v) else p)
  else rs ++ [(name, v)]

/-- The metrics accumulator: input table of return series (column name ×
time-ordered returns), annualization factor, and accumulated result table
(statistic name × per-asset values, one entry per asset column of
`data`). -/
structure ReturnMetrics where
  data : List (String × List ℚ)
  annualization : ℚ
  results : List (String × List Cell)

/-- Model of `ReturnMetrics._with_column`: derive a new accumulator whose result
table is the current one with one column set, the input table and
annualization factor passed through unchanged. -/
def ReturnMetrics.with_column (A : ReturnMetrics) (name : String)
    (series : List Cell) : ReturnMetrics :=
  ReturnMetrics.mk A.data A.annualization (setCol A.results name series)

/-- Model of `ReturnMetrics._with_columns`: derive a new accumulator with several
columns set, in the order given (the order of the Python dict). -/
def ReturnMetrics.with_columns (A : ReturnMetrics)
    (new_series : List (String × List Cell)) : ReturnMetrics :=
  ReturnMetrics.mk A.data A.annualization
    (new_series.foldl (fun r p => setCol r p.1 p.2) A.results)

/-- Model of `ReturnMetrics.df`: the full-copy accessor for the result table
(copying is the identity in this value-level embedding). -/
def ReturnMetrics.df (A : ReturnMetrics) : List (String × List Cell) :=
  A.results

/-- Column-wise `pandas` mean: sum divided by length, NaN (`none`) on an
empty column. -/
def colMean : List ℚ → Cell
  | [] => none
  | x :: xs => some ((x :: xs).sum / (((x :: xs).length : ℕ) : ℚ))

/-- The per-asset series written by `ReturnMetrics.mean`:
`self.data.mean() * self.annualization`. -/
def ReturnMetrics.mean_series (A : ReturnMetrics) : List Cell :=
  A.data.map (fun c => (colMean c.2).map (fun v => v * A.annualization))

/-- Model of `ReturnMetrics.mean` (source default column name: "mean"). -/
def ReturnMetrics.mean (A : ReturnMetrics) (name : String) : ReturnMetrics :=
  A.with_column name A.mean_series

/-- Insert a value into a sorted list, keeping it sorted. -/
def insertSorted (x : ℚ) : List ℚ → List ℚ
  | [] => [x]
  | y :: ys => if x ≤ y then x :: y :: ys else y :: insertSorted x ys

/-- Sort a list of rationals ascending (insertion sort), modelling the
ordering of values inside the quantile computation. -/
def sortQ (xs : List ℚ) : List ℚ :=
  xs.foldr insertSorted []

/-- Model of `pandas` `Series.quantile` with the default linear interpolation, on a
nonempty column and a quantile in [0, 1]: with the values sorted
ascending, the order-statistic position is `q * (n - 1)`; the result
interpolates linearly between the neighbouring order statistics. -/
def quantileLinear (xs : List ℚ) (q : ℚ) : ℚ :=
  let s := sortQ xs
  let pos : ℚ := q * ((s.length : ℚ) - 1)
  let i : ℕ := (⌊pos⌋).toNat
  let lo := s.getD i 0
  let hi := s.getD (i + 1) lo
  lo + (pos - (i : ℚ)) * (hi - lo)

/-- The quantile cell of one column: `none` (NaN) on an empty column. -/
def varCell : List ℚ → ℚ → Cell
  | [], _ => none
  | x :: xs, q => some (quantileLinear (x :: xs) q)

/-- The per-asset series written by `ReturnMetrics.VaR`:
`self.data.quantile(quantile)`. -/
def varSeries (A : ReturnMetrics) (quantile : ℚ) : List Cell :=
  A.data.map (fun c => varCell c.2 quantile)

/-- Model of `ReturnMetrics.VaR` (source defaults: quantile 0.05, name "VaR"). -/
def ReturnMetrics.VaR (A : ReturnMetrics) (quantile : ℚ) (name : String) :
    ReturnMetrics :=
  A.with_column name (varSeries A quantile)

/-- The values of a column at or below the given threshold, in order:
the effect of the boolean mask `self.data <= self.data.quantile(q)`. -/
def tailSelect (Q : ℚ) : List ℚ → List ℚ
  | [] => []
  | x :: xs => if x ≤ Q then x :: tailSelect Q xs else tailSelect Q xs

/-- Column-wise CVaR value:
`self.data.loc[self.data <= self.data.quantile(q)].mean()`, the mean of
the returns at or below the column's q-quantile (NaN when nothing is
selected). -/
def cvarVal : List ℚ → ℚ → Cell
  | [], _ => none
  | x :: xs, q => colMean (tailSelect (quantileLinear (x :: xs) q) (x :: xs))

/-- Model of `ReturnMetrics.CVaR` (source defaults: quantile 0.05, name "CVaR"). -/
def ReturnMetrics.CVaR (A : ReturnMetrics) (quantile : ℚ) (name : String) :
    ReturnMetrics :=
  A.with_column name (A.data.map (fun c => cvarVal c.2 quantile))

/-- Model of `ReturnMetrics.tail_risk`: chains `VaR(q)` then `CVaR(q)` with the
source's default column names. -/
def ReturnMetrics.tail_risk (A : ReturnMetrics) (quantile : ℚ) : ReturnMetrics :=
  (A.VaR quantile "VaR").CVaR quantile "CVaR"

/-- Running product scan: `scanMul acc rs` lists the partial products
`acc * (1+r₁)`, `acc * (1+r₁) * (1+r₂)`, …. -/
def scanMul (acc : ℚ) : List ℚ → List ℚ
  | [] => []
  | r :: rest => (acc * (1 + r)) :: scanMul (acc * (1 + r)) rest

/-- Model of `cumulative = (1 + self.data).cumprod()` on one column: the
cumulative wealth path of a return series. -/
def cumulative (rs : List ℚ) : List ℚ :=
  scanMul 1 rs

/-- Running maximum scan with initial value `m`. -/
def scanMax (m : ℚ) : List ℚ → List ℚ
  | [] => []
  | w :: rest => (max m w) :: scanMax (max m w) rest

/-- Model of `peak = cumulative.cummax()` on one column: the running peak of the
wealth path. -/
def cummax : List ℚ → List ℚ
  | [] => []
  | w :: rest => w :: scanMax w rest

/-- Model of `drawdown = (cumulative - peak) / peak` on one column. -/
def drawdown (rs : List ℚ) : List ℚ :=
  List.zipWith (fun wv pv => (wv - pv) / pv) (cumulative rs) (cummax (cumulative rs))

/-- Model of `pandas` `Series.min`: the minimum of a column, `none` (NaN) when the
column is empty. -/
def seriesMin : List ℚ → Option ℚ
  | [] => none
  | x :: xs => some (xs.foldl min x)

/-- Model of `pandas` `Series.max`: the maximum of a column, `none` when empty. -/
def seriesMax : List ℚ → Option ℚ
  | [] => none
  | x :: xs => some (xs.foldl max x)

/-- Position of the first element satisfying `p`, if any. -/
def firstIdxWhere (p : ℚ → Prop) [DecidablePred p] : List ℚ → Option ℕ
  | [] => none
  | x :: xs => if p x then some 0 else (firstIdxWhere p xs).map (fun i => i + 1)

/-- Model of `pandas` `Series.idxmin` over an integer 0..n-1 index: the label of
the first occurrence of the minimum; raises (here `none`) on an empty
series. -/
def idxmin (xs : List ℚ) : Option ℕ :=
  match seriesMin xs with
  | none => none
  | some m => firstIdxWhere (fun v => v = m) xs

/-- Model of `pandas` `Series.idxmax`: first occurrence of the maximum, `none` on
an empty series. -/
def idxmax (xs : List ℚ) : Option ℕ :=
  match seriesMax xs with
  | none => none
  | some m => firstIdxWhere (fun v => v = m) xs

/-- The per-column detail computation of `max_drawdown(details=True)`:
`trough = drawdown.idxmin()`;
`peak_date = cumulative[:trough].idxmax()` (positional end-exclusive
slice, so the `idxmax` of an empty prefix — `none` here — models the
`ValueError` the source raises);
`recovery_date` = first label at or after the trough whose wealth is at
least `peak[peak_date]`, `none` when recovery never occurs.
Returns `(peak_date, trough_date, recovery_date)`. -/
def colDetail (rs : List ℚ) : Option (ℕ × ℕ × Option ℕ) :=
  match idxmin (drawdown rs) with
  | none => none
  | some trough =>
    match idxmax ((cumulative rs).take trough) with
    | none => none
    | some pk =>
      let peakVal := (cummax (cumulative rs)).getD pk 0
      let recov :=
        match firstIdxWhere (fun w => peakVal ≤ w) ((cumulative rs).drop trough) with
        | some j => some (trough + j)
        | none => none
      some (pk, trough, recov)

/-- The reported peak date of `max_drawdown(details=True)` on one column,
`none` when the source computation raises. -/
def code_peak (rs : List ℚ) : Option ℕ :=
  (colDetail rs).map (fun d => d.1)

/-- The three per-asset detail columns (peak dates, trough dates,
recovery dates) over all columns of the input table; `none` when any
column makes the source raise. Date labels are stored as rational cell
values, recovery `none` as a missing cell. -/
def detailColumns : List (String × List ℚ) → Option (List Cell × List Cell × List Cell)
  | [] => some ([], [], [])
  | c :: rest =>
    match colDetail c.2, detailColumns rest with
    | some d, some ds =>
        some (some ((d.1 : ℚ)) :: ds.1, some ((d.2.1 : ℚ)) :: ds.2.1,
          (d.2.2.map (fun j => (j : ℚ))) :: ds.2.2)
    | _, _ => none

/-- Model of `ReturnMetrics.max_drawdown` (source defaults: name "max_drawdown",
details False, data_type "returns").  `data_type="prices"` fails with the
not-implemented error before any computation; a raised `ValueError` from
the detail pass is also an `Except.error`; otherwise the derived
accumulator carries the minimum drawdown per column, plus the three date
columns when details are requested. -/
def ReturnMetrics.max_drawdown (A : ReturnMetrics) (name : String)
    (details : Bool) (data_type : String) : Except String ReturnMetrics :=
  if data_type = "prices" then
    Except.error "max_drawdown with data_type='prices' is not implemented yet."
  else
    let mddCol : List Cell := A.data.map (fun c => seriesMin (drawdown c.2))
    if details then
      match detailColumns A.data with
      | none => Except.error "ValueError: attempt to get argmax of an empty sequence"
      | some d =>
          Except.ok (A.with_columns
            [(name, mddCol),
             (name ++ "_peak_date", d.1),
             (name ++ "_trough_date", d.2.1),
             (name ++ "_recovery_date", d.2.2)])
    else
      Except.ok (A.with_column name mddCol)

/-- Sample variance with one delta degree of freedom, as `pandas`
`Series.var` computes it (the quantity under the square root of
`Series.std`). -/
def sampleVar (xs : List ℚ) : ℚ :=
  (xs.map (fun x => (x - xs.sum / (xs.length : ℚ)) ^ 2)).sum / ((xs.length : ℚ) - 1)

/-- Model of `pandas` `Series.std` on one column: the square root of the sample
variance.  Real-valued because the square root of a rational is
irrational in general. -/
noncomputable def pandasStd (xs : List ℚ) : ℝ :=
  Real.sqrt ((sampleVar xs : ℚ) : ℝ)

/-- The per-column value written by `ReturnMetrics.std`:
`self.data.std() * (self.annualization ** 0.5)`, with the Python float
power `** 0.5` modelled by the real power with exponent 1/2. -/
noncomputable def std_value (k : ℚ) (xs : List ℚ) : ℝ :=
  pandasStd xs * ((k : ℝ) ^ ((1 : ℝ) / 2))

/-- The fixed allow-list `ReturnMetrics._proxy` of read-only attribute
names forwarded to the result table. -/
def proxyList : List String :=
  ["head", "tail", "shape", "columns", "index", "dtypes", "T", "info",
   "describe", "to_csv", "to_excel", "to_dict", "to_json", "to_numpy"]

/-- Outcome of an attribute access that reaches
`ReturnMetrics.__getattr__`: forwarded read-only to the result table, or
an `AttributeError` with the given message. -/
inductive AttrResult where
  | forward
  | err (msg : String)

/-- The message of the unknown-attribute error raised by
`ReturnMetrics.__getattr__`. -/
def unknownAttrMsg (name : String) : String :=
  "'ReturnMetrics' has no attribute '" ++ name ++
    "'. Use `.df` for full DataFrame access."

/-- Whether the first character list is an initial segment of the second
(`str.startswith` on the underlying characters). -/
def strStarts : List Char → List Char → Bool
  | [], _ => true
  | _ :: _, [] => false
  | c :: cs, d :: ds => decide (c = d) && strStarts cs ds

/-- Model of `ReturnMetrics.__getattr__`, reached only for attribute names not
defined on the accumulator: allow-listed names are forwarded; names
starting with `_repr_` that the result table object possesses (given here
as `resultsAttrs`, since the result table's attribute surface belongs to
the table engine) are forwarded as well; anything else raises the
unknown-attribute error. -/
def getattrFallback (resultsAttrs : List String) (name : String) : AttrResult :=
  if name ∈ proxyList then AttrResult.forward
  else if strStarts "_repr_".toList name.toList then
    (if name ∈ resultsAttrs then AttrResult.forward
     else AttrResult.err (unknownAttrMsg name))
  else AttrResult.err (unknownAttrMsg name)

/-- Position of the last element satisfying `p`, if any. -/
def lastIdxWhere (p : ℚ → Prop) [DecidablePred p] (l : List ℚ) : Option ℕ :=
  (firstIdxWhere p l.reverse).map (fun i => l.length - 1 - i)

/-- Reading of the claimed peak date, following the claim's words: the
LAST index at or before the trough at which the cumulative wealth equals
the running peak active at the trough. -/
def spec_peak_last (rs : List ℚ) (trough : ℕ) : Option ℕ :=
  lastIdxWhere (fun w => w = (cummax (cumulative rs)).getD trough 0)
    ((cumulative rs).take (trough + 1))

/-- Amended reading of the claimed peak date: the FIRST index at or
before the trough at which the cumulative wealth equals the running peak
active at the trough. -/
def spec_peak_first (rs : List ℚ) (trough : ℕ) : Option ℕ :=
  firstIdxWhere (fun w => w = (cummax (cumulative rs)).getD trough 0)
    ((cumulative rs).take (trough + 1))

/-- Total list indexing with default value 0, structurally recursive (the
value of a series at a time label). -/
def nthD : List ℚ → ℕ → ℚ
  | [], _ => 0
  | x :: _, 0 => x
  | _ :: xs, n + 1 => nthD xs n

/-!
Association-list lemmas about the single mutation path
(`setCol`, and the folds used by `with_columns`).
-/

theorem lookup_overwrite {κ : Type} (rs : List (String × κ)) (n : String) (v : κ)
    (c : String) :
    lookupCol (rs.map (fun p => if p.1 = n then (n, v) else p)) c =
      if c = n then (if n ∈ keysOf rs then some v else none) else lookupCol rs c := by
  induction rs with
  | nil => simp [lookupCol, keysOf]
  | cons p rest ih =>
    by_cases hp : p.1 = n
    · by_cases hc : c = n
      · subst hc
        simp [lookupCol, keysOf, hp, ih]
      · simp [lookupCol, keysOf, hp, ih, hc,
          (show ¬ (n = c) from fun he => hc he.symm)]
    · by_cases hc : c = n
      · subst hc
        simp only [lookupCol, keysOf, List.map_cons, hp, ih, if_true, eq_self_iff_true,
          if_false, (show ¬ (p.1 = c) from hp)]
        have hiff : c ∈ p.1 :: List.map Prod.fst rest ↔ c ∈ List.map Prod.fst rest := by
          constructor
          · intro hmem
            rcases List.mem_cons.mp hmem with h1 | h2
            · exact absurd h1 (fun he => hp he.symm)
            · exact h2
          · exact fun hmem => List.mem_cons_of_mem _ hmem
        rw [if_congr hiff rfl rfl]
      · simp [lookupCol, keysOf, hp, ih, hc]

theorem lookup_append {κ : Type} (l1 l2 : List (String × κ)) (c : String) :
    lookupCol (l1 ++ l2) c = (lookupCol l1 c).orElse (fun _ => lookupCol l2 c) := by
  induction l1 with
  | nil => simp [lookupCol, Option.orElse]
  | cons p rest ih =>
    by_cases hp : p.1 = c <;> simp [lookupCol, hp, ih, Option.orElse]

theorem lookup_eq_none_of_not_mem {κ : Type} (rs : List (String × κ)) (c : String)
    (h : c ∉ keysOf rs) : lookupCol rs c = none := by
  induction rs with
  | nil => rfl
  | cons p rest ih =>
    simp only [keysOf, List.map_cons, List.mem_cons, not_or] at h
    have hp : ¬ (p.1 = c) := fun he => h.1 he.symm
    simp [lookupCol, hp, ih (by simpa [keysOf] using h.2)]

theorem lookup_setCol {κ : Type} (rs : List (String × κ)) (n : String) (v : κ)
    (c : String) :
    lookupCol (setCol rs n v) c = if c = n then some v else lookupCol rs c := by
  unfold setCol
  by_cases hm : n ∈ keysOf rs
  · rw [if_pos hm, lookup_overwrite, if_pos hm]
  · rw [if_neg hm, lookup_append]
    by_cases hc : c = n
    · subst hc
      rw [lookup_eq_none_of_not_mem rs c hm]
      simp [lookupCol, Option.orElse]
    · cases hx : lookupCol rs c <;>
        simp [hx, lookupCol, Option.orElse, hc,
          (show ¬ (n = c) from fun he => hc he.symm)]

theorem keys_overwrite {κ : Type} (rs : List (String × κ)) (n : String) (v : κ) :
    keysOf (rs.map (fun p => if p.1 = n then (n, v) else p)) = keysOf rs := by
  induction rs with
  | nil => rfl
  | cons p rest ih =>
    by_cases hp : p.1 = n <;> simp [keysOf, hp, ih] <;>
      simpa [keysOf] using ih

theorem keys_setCol {κ : Type} (rs : List (String × κ)) (n : String) (v : κ) :
    keysOf (setCol rs n v) =
      if n ∈ keysOf rs then keysOf rs else keysOf rs ++ [n] := by
  unfold setCol
  by_cases hm : n ∈ keysOf rs
  · rw [if_pos hm, if_pos hm, keys_overwrite]
  · rw [if_neg hm, if_neg hm]
    simp [keysOf]

theorem lookup_foldl_setCol {κ : Type} (ns : List (String × κ))
    (rs : List (String × κ)) (c : String) :
    lookupCol (ns.foldl (fun r p => setCol r p.1 p.2) rs) c =
      (lookupCol ns.reverse c).orElse (fun _ => lookupCol rs c) := by
  induction ns generalizing rs with
  | nil => simp [lookupCol, Option.orElse]
  | cons p rest ih =>
    rw [List.foldl_cons, ih, List.reverse_cons, lookup_append, lookup_setCol]
    by_cases hc : c = p.1
    · cases hx : lookupCol rest.reverse c <;>
        simp [hx, hc, Option.orElse, lookupCol]
    · cases hx : lookupCol rest.reverse c <;>
        simp [hx, Option.orElse, lookupCol, hc,
          (show ¬ (p.1 = c) from fun he => hc he.symm)]

theorem keys_foldl_setCol {κ : Type} (ns : List (String × κ))
    (rs : List (String × κ)) (h : ∀ p ∈ ns, p.1 ∈ keysOf rs) :
    keysOf (ns.foldl (fun r p => setCol r p.1 p.2) rs) = keysOf rs := by
  induction ns generalizing rs with
  | nil => rfl
  | cons p rest ih =>
    rw [List.foldl_cons]
    have hk : keysOf (setCol rs p.1 p.2) = keysOf rs := by
      rw [keys_setCol, if_pos (h p (List.mem_cons_self p rest))]
    rw [ih (setCol rs p.1 p.2) (fun q hq => hk ▸ h q (List.mem_cons_of_mem p hq)), hk]

/-- C1 (amended): deriving an accumulator through the single mutation
path (`_with_column` / `_with_columns`, through which every statistic
method funnels) leaves the input table and the annualization factor
identical, and produces a result table whose columns are a superset of
the previous ones; every column other than the written name(s) is
preserved unchanged, while a written name carries the newly computed
series (for `_with_columns`, the last write to a name wins). -/
theorem with_column_derivation_invariant (A : ReturnMetrics) (name : String)
    (series : List Cell) (c : String) :
    ((A.with_column name series).data = A.data ∧
     (A.with_column name series).annualization = A.annualization ∧
     keysOf (A.with_column name series).results =
       (if name ∈ keysOf A.results then keysOf A.results
        else keysOf A.results ++ [name]) ∧
     lookupCol (A.with_column name series).results c =
       (if c = name then some series else lookupCol A.results c)) ∧
    ∀ ns : List (String × List Cell),
      (A.with_columns ns).data = A.data ∧
      (A.with_columns ns).annualization = A.annualization ∧
      lookupCol (A.with_columns ns).results c =
        (lookupCol ns.reverse c).orElse (fun _ => lookupCol A.results c) := by
  refine ⟨⟨rfl, rfl, keys_setCol A.results name series,
    lookup_setCol A.results name series c⟩, fun ns => ⟨rfl, rfl, ?_⟩⟩
  exact lookup_foldl_setCol ns A.results c

/-- C1 counterexample: a statistic method call can change a column that
the receiving accumulator already holds, so "all of A's columns preserved
unchanged" fails as stated.  Here `VaR` is called twice with the same
output name "x" but different quantiles: the derived accumulator's "x"
column is `[some 1]`, not the prior `[some 0]`. -/
theorem var_overwrite_changes_prior_column :
    lookupCol ((ReturnMetrics.mk [("a", [0, 1])] 1 []).VaR 0 "x").results "x" =
      some [some 0] ∧
    lookupCol (((ReturnMetrics.mk [("a", [0, 1])] 1 []).VaR 0 "x").VaR 1 "x").results
      "x" = some [some 1] ∧
    (some [some (0:ℚ)] : Option (List Cell)) ≠ some [some 1] := by
  refine ⟨?_, ?_, by simp⟩
  · norm_num [ReturnMetrics.VaR, varSeries, varCell, quantileLinear, sortQ, insertSorted,
      List.foldr, ReturnMetrics.with_column, setCol, keysOf, lookupCol]
  · norm_num [ReturnMetrics.VaR, varSeries, varCell, quantileLinear, sortQ, insertSorted,
      List.foldr, ReturnMetrics.with_column, setCol, keysOf, lookupCol]

/-- C7: calling `mean("x")` twice in a chain yields a result table with
exactly one column named "x", holding the second computation's value
(which is recomputed from the unchanged input table and annualization
factor); overwriting is last-write-wins, not an error. -/
theorem mean_twice_last_write_wins (A : ReturnMetrics)
    (h : (keysOf A.results).Nodup) :
    countKey ((A.mean "x").mean "x").results "x" = 1 ∧
    lookupCol ((A.mean "x").mean "x").results "x" = some ((A.mean "x").mean_series) ∧
    (A.mean "x").mean_series = A.mean_series := by
  refine ⟨?_, ?_, rfl⟩
  · show countKey (setCol (setCol A.results "x" A.mean_series) "x"
      ((A.mean "x").mean_series)) "x" = 1
    unfold countKey
    have h1 : keysOf (setCol A.results "x" A.mean_series) =
        if "x" ∈ keysOf A.results then keysOf A.results
        else keysOf A.results ++ ["x"] := keys_setCol _ _ _
    have hmem : "x" ∈ keysOf (setCol A.results "x" A.mean_series) := by
      rw [h1]
      by_cases hx : "x" ∈ keysOf A.results
      · rw [if_pos hx]; exact hx
      · rw [if_neg hx]; exact List.mem_append_right _ (List.mem_singleton_self _)
    rw [keys_setCol, if_pos hmem, h1]
    by_cases hx : "x" ∈ keysOf A.results
    · rw [if_pos hx]
      exact List.count_eq_one_of_mem h hx
    · rw [if_neg hx]
      rw [List.count_append]
      rw [List.count_eq_zero.mpr hx]
      simp
  · show lookupCol (setCol (setCol A.results "x" A.mean_series) "x"
      ((A.mean "x").mean_series)) "x" = some ((A.mean "x").mean_series)
    rw [lookup_setCol, if_pos rfl]

/-- C7 witness: the twice-chained `mean("x")` on a concrete accumulator
with two data points and annualization factor 2. -/
theorem mean_twice_last_write_wins_witness :
    (keysOf (ReturnMetrics.mk [("a", [(1:ℚ), 2])] 2 []).results).Nodup ∧
    (countKey (((ReturnMetrics.mk [("a", [(1:ℚ), 2])] 2 []).mean "x").mean "x").results
        "x" = 1 ∧
      lookupCol (((ReturnMetrics.mk [("a", [(1:ℚ), 2])] 2 []).mean "x").mean "x").results
        "x" = some (((ReturnMetrics.mk [("a", [(1:ℚ), 2])] 2 []).mean "x").mean_series) ∧
      ((ReturnMetrics.mk [("a", [(1:ℚ), 2])] 2 []).mean "x").mean_series =
        (ReturnMetrics.mk [("a", [(1:ℚ), 2])] 2 []).mean_series) :=
  ⟨by simp [keysOf], mean_twice_last_write_wins _ (by simp [keysOf])⟩

/-- C10: when a statistic write targets a column name already present in
the result table, the derived accumulator's result table has exactly the
same column-name sequence: the overwritten column keeps its position and
every other column keeps its position; likewise for a multi-column write
whose names are all already present. -/
theorem overwrite_preserves_column_positions (A : ReturnMetrics) (name : String)
    (series : List Cell) (h : name ∈ keysOf A.results) :
    keysOf (A.with_column name series).results = keysOf A.results ∧
    ∀ ns : List (String × List Cell), (∀ p ∈ ns, p.1 ∈ keysOf A.results) →
      keysOf (A.with_columns ns).results = keysOf A.results := by
  constructor
  · show keysOf (setCol A.results name series) = keysOf A.results
    rw [keys_setCol, if_pos h]
  · intro ns hns
    exact keys_foldl_setCol ns A.results hns

/-- C10 witness: overwriting the first of two result columns keeps the
column order ["x", "y"]. -/
theorem overwrite_preserves_column_positions_witness :
    "x" ∈ keysOf (ReturnMetrics.mk [("a", [(0:ℚ)])] 1
        [("x", [some 1]), ("y", [none])]).results ∧
    (keysOf ((ReturnMetrics.mk [("a", [(0:ℚ)])] 1
        [("x", [some 1]), ("y", [none])]).with_column "x" [some 5]).results =
      keysOf (ReturnMetrics.mk [("a", [(0:ℚ)])] 1
        [("x", [some 1]), ("y", [none])]).results ∧
     ∀ ns : List (String × List Cell),
       (∀ p ∈ ns, p.1 ∈ keysOf (ReturnMetrics.mk [("a", [(0:ℚ)])] 1
          [("x", [some 1]), ("y", [none])]).results) →
       keysOf ((ReturnMetrics.mk [("a", [(0:ℚ)])] 1
          [("x", [some 1]), ("y", [none])]).with_columns ns).results =
         keysOf (ReturnMetrics.mk [("a", [(0:ℚ)])] 1
          [("x", [some 1]), ("y", [none])]).results) :=
  ⟨by simp [keysOf], overwrite_preserves_column_positions _ _ _ (by simp [keysOf])⟩

/-- C5: invoking `max_drawdown` with `data_type="prices"` raises the
not-implemented error synchronously (the check precedes every
computation in the source, so nothing is partially computed) and yields
no derived accumulator, leaving the receiver untouched. -/
theorem max_drawdown_prices_not_implemented (A : ReturnMetrics) (name : String)
    (details : Bool) :
    A.max_drawdown name details "prices" =
      Except.error "max_drawdown with data_type='prices' is not implemented yet." ∧
    ∀ B : ReturnMetrics, A.max_drawdown name details "prices" ≠ Except.ok B := by
  constructor
  · simp [ReturnMetrics.max_drawdown]
  · intro B hB
    rw [show A.max_drawdown name details "prices" =
        Except.error "max_drawdown with data_type='prices' is not implemented yet." from
      by simp [ReturnMetrics.max_drawdown]] at hB
    exact Except.noConfusion hB

/-- C9 (amended): an attribute name that is neither defined on the
accumulator, nor in the read-only forwarding allow-list, nor a `_repr_`
name possessed by the result table, raises the unknown-attribute error;
its message names the offending attribute and directs the caller to the
full-copy accessor `.df`; allow-listed names are forwarded read-only to
the result table. -/
theorem unknown_attribute_error (resultsAttrs : List String) (name : String)
    (h1 : name ∉ proxyList)
    (h2 : strStarts "_repr_".toList name.toList = true → name ∉ resultsAttrs) :
    getattrFallback resultsAttrs name = AttrResult.err (unknownAttrMsg name) ∧
    unknownAttrMsg name =
      "'ReturnMetrics' has no attribute '" ++ name ++
        "'. Use `.df` for full DataFrame access." ∧
    ∀ n2 ∈ proxyList, ∀ attrs2 : List String,
      getattrFallback attrs2 n2 = AttrResult.forward := by
  refine ⟨?_, rfl, ?_⟩
  · unfold getattrFallback
    rw [if_neg h1]
    cases hS : strStarts "_repr_".toList name.toList
    · simp [hS]
    · simp [hS, h2 hS]
  · intro n2 hn2 attrs2
    unfold getattrFallback
    rw [if_pos hn2]

/-- C9 witness: the undefined, non-allow-listed name "foo" raises the
unknown-attribute error even when the result table offers attributes. -/
theorem unknown_attribute_error_witness :
    "foo" ∉ proxyList ∧
    (strStarts "_repr_".toList "foo".toList = true → "foo" ∉ ["shape"]) ∧
    (getattrFallback ["shape"] "foo" = AttrResult.err (unknownAttrMsg "foo") ∧
     unknownAttrMsg "foo" =
       "'ReturnMetrics' has no attribute '" ++ "foo" ++
         "'. Use `.df` for full DataFrame access." ∧
     ∀ n2 ∈ proxyList, ∀ attrs2 : List String,
       getattrFallback attrs2 n2 = AttrResult.forward) :=
  ⟨by simp [proxyList], by decide,
    unknown_attribute_error ["shape"] "foo" (by simp [proxyList]) (by decide)⟩

/-- C9 counterexample: the dynamic `_repr_*` branch of `__getattr__`
forwards `_repr_html_` (an attribute the result table possesses) even
though it is neither defined on the accumulator nor in the allow-list, so
the claim "every such name raises" is false as stated. -/
theorem repr_attribute_forwarded :
    "_repr_html_" ∉ proxyList ∧
    getattrFallback ["_repr_html_"] "_repr_html_" = AttrResult.forward ∧
    AttrResult.forward ≠ AttrResult.err (unknownAttrMsg "_repr_html_") := by
  refine ⟨by simp [proxyList], ?_, by simp⟩
  simp [getattrFallback, proxyList, strStarts]

/-- C2: for the single-asset return series [0.1, -0.2, 0.05, 0.1, 0.0]
over time index 0..4 the wealth path is
[1.1, 0.88, 0.924, 1.0164, 1.0164]; `max_drawdown` with details reports
max_drawdown = -0.2, peak date 0, trough date 1, and an absent recovery
date (the wealth path never returns to the peak 1.1). -/
theorem max_drawdown_literal_scenario :
    cumulative [1/10, -1/5, 1/20, 1/10, 0] =
      [11/10, 22/25, 231/250, 2541/2500, 2541/2500] ∧
    (ReturnMetrics.mk [("a", [1/10, -1/5, 1/20, 1/10, 0])] 1 []).max_drawdown
      "max_drawdown" true "returns" =
    Except.ok (ReturnMetrics.mk [("a", [1/10, -1/5, 1/20, 1/10, 0])] 1
      [("max_drawdown", [some (-1/5)]),
       ("max_drawdown_peak_date", [some 0]),
       ("max_drawdown_trough_date", [some 1]),
       ("max_drawdown_recovery_date", [none])]) := by
  constructor
  · norm_num [cumulative, scanMul]
  · have hd : detailColumns [("a", [1/10, -1/5, 1/20, 1/10, 0])] =
        some ([some 0], [some 1], [none]) := by
      norm_num [detailColumns, colDetail, idxmin, idxmax, seriesMin, seriesMax,
        firstIdxWhere, drawdown, cumulative, scanMul, cummax, scanMax, max_def, min_def,
        List.foldl]
    have hm : List.map (fun c => seriesMin (drawdown c.2))
        [("a", [(1:ℚ)/10, -1/5, 1/20, 1/10, 0])] = [some (-1/5)] := by
      norm_num [seriesMin, drawdown, cumulative, scanMul, cummax, scanMax, max_def,
        min_def, List.foldl]
    simp only [ReturnMetrics.max_drawdown, ReturnMetrics.with_columns]
    rw [hd, hm]
    simp [setCol, keysOf]

/-!
Lemmas about the tail selection used by CVaR.
-/

theorem tailSelect_le (Q : ℚ) (l : List ℚ) : ∀ z ∈ tailSelect Q l, z ≤ Q := by
  induction l with
  | nil => intro z hz; simp [tailSelect] at hz
  | cons x xs ih =>
    intro z hz
    by_cases hx : x ≤ Q
    · rw [tailSelect, if_pos hx] at hz
      rcases List.mem_cons.mp hz with h1 | h2
      · exact h1 ▸ hx
      · exact ih z h2
    · rw [tailSelect, if_neg hx] at hz
      exact ih z hz

theorem mem_tailSelect (Q : ℚ) (l : List ℚ) (z : ℚ) (hz : z ∈ l) (hle : z ≤ Q) :
    z ∈ tailSelect Q l := by
  induction l with
  | nil => simp at hz
  | cons x xs ih =>
    rcases List.mem_cons.mp hz with h1 | h2
    · subst h1
      rw [tailSelect, if_pos hle]
      exact List.mem_cons_self _ _
    · by_cases hx : x ≤ Q
      · rw [tailSelect, if_pos hx]
        exact List.mem_cons_of_mem _ (ih h2)
      · rw [tailSelect, if_neg hx]
        exact ih h2

/-- C6: whenever some value of the column lies strictly below the
q-quantile, the CVaR value (the mean of the values at or below the
quantile) is defined and is at most the VaR value (the interpolated
quantile itself). -/
theorem cvar_le_var (xs : List ℚ) (q : ℚ) (h0 : 0 ≤ q) (h1 : q ≤ 1)
    (h : ∃ x ∈ xs, x < quantileLinear xs q) :
    ∃ cv : ℚ, cvarVal xs q = some cv ∧ cv ≤ quantileLinear xs q := by
  obtain ⟨x, hx, hlt⟩ := h
  cases xs with
  | nil => simp at hx
  | cons y ys =>
    have hmem : x ∈ tailSelect (quantileLinear (y :: ys) q) (y :: ys) :=
      mem_tailSelect _ _ x hx (le_of_lt hlt)
    cases ht : tailSelect (quantileLinear (y :: ys) q) (y :: ys) with
    | nil => rw [ht] at hmem; simp at hmem
    | cons z zs =>
      refine ⟨(z :: zs).sum / ((z :: zs).length : ℚ), ?_, ?_⟩
      · rw [cvarVal, ht]
        rfl
      · have hall : ∀ w ∈ (z :: zs), w ≤ quantileLinear (y :: ys) q := by
          intro w hw
          exact tailSelect_le _ _ w (ht ▸ hw)
        have hsum : (z :: zs).sum ≤ (z :: zs).length • quantileLinear (y :: ys) q :=
          List.sum_le_card_nsmul _ _ hall
        have hlen : (0 : ℚ) < ((z :: zs).length : ℚ) := by
          exact_mod_cast Nat.succ_pos zs.length
        rw [div_le_iff₀ hlen]
        calc (z :: zs).sum ≤ (z :: zs).length • quantileLinear (y :: ys) q := hsum
          _ = ((z :: zs).length : ℚ) * quantileLinear (y :: ys) q := by
              rw [nsmul_eq_mul]
          _ = quantileLinear (y :: ys) q * ((z :: zs).length : ℚ) := mul_comm _ _

/-- C6 witness: the column [0, 1, 2, 3] at quantile 1/4 has quantile
value 3/4, the value 0 lies strictly below it, and CVaR = 0 ≤ 3/4. -/
theorem cvar_le_var_witness :
    (0 : ℚ) ≤ 1/4 ∧ (1/4 : ℚ) ≤ 1 ∧
    (∃ x ∈ [(0:ℚ), 1, 2, 3], x < quantileLinear [0, 1, 2, 3] (1/4)) ∧
    ∃ cv : ℚ, cvarVal [0, 1, 2, 3] (1/4) = some cv ∧
      cv ≤ quantileLinear [0, 1, 2, 3] (1/4) := by
  refine ⟨by norm_num, by norm_num, ?_, ?_⟩
  · refine ⟨0, by norm_num, ?_⟩
    norm_num [quantileLinear, sortQ, insertSorted, List.foldr]
  · exact cvar_le_var [0, 1, 2, 3] (1/4) (by norm_num) (by norm_num)
      ⟨0, by norm_num, by norm_num [quantileLinear, sortQ, insertSorted, List.foldr]⟩

/-- C8: the column written by `mean` is the plain per-column average
multiplied by the annualization factor, and the per-column value computed
by `std` — `data.std() * annualization ** 0.5` — equals the 1-period
sample standard deviation multiplied by the square root of the
annualization factor. -/
theorem mean_std_annualization (A : ReturnMetrics) (name : String) (k : ℚ)
    (xs : List ℚ) :
    lookupCol ((A.mean name).results) name =
      some (A.data.map (fun c => (colMean c.2).map (fun v => v * A.annualization))) ∧
    std_value k xs = pandasStd xs * Real.sqrt ((k : ℚ) : ℝ) := by
  constructor
  · show lookupCol (setCol A.results name A.mean_series) name = some A.mean_series
    rw [lookup_setCol, if_pos rfl]
  · unfold std_value
    rw [Real.sqrt_eq_rpow]


/-!
Length and indexing lemmas for the drawdown pipeline.
-/

theorem length_scanMul (l : List ℚ) (a : ℚ) : (scanMul a l).length = l.length := by
  induction l generalizing a with
  | nil => rfl
  | cons r rest ih => simp [scanMul, ih]

theorem length_scanMax (l : List ℚ) (m : ℚ) : (scanMax m l).length = l.length := by
  induction l generalizing m with
  | nil => rfl
  | cons w rest ih => simp [scanMax, ih]

theorem length_cummax (l : List ℚ) : (cummax l).length = l.length := by
  cases l with
  | nil => rfl
  | cons w rest => simp [cummax, length_scanMax]

theorem length_cumulative (rs : List ℚ) : (cumulative rs).length = rs.length := by
  simpa [cumulative] using length_scanMul rs 1

theorem length_drawdown (rs : List ℚ) : (drawdown rs).length = rs.length := by
  simp [drawdown, List.length_zipWith, length_cumulative, length_cummax]

theorem getD_eq_nthD (l : List ℚ) (n : ℕ) : l.getD n 0 = nthD l n := by
  induction l generalizing n with
  | nil => simp [nthD, List.getD_nil]
  | cons x xs ih =>
    cases n with
    | zero => simp [nthD, List.getD_cons_zero]
    | succ j =>
      rw [List.getD_cons_succ, ih j]
      rfl

theorem nthD_zipWith (f : ℚ → ℚ → ℚ) (as bs : List ℚ) (i : ℕ) (h1 : i < as.length)
    (h2 : i < bs.length) :
    nthD (List.zipWith f as bs) i = f (nthD as i) (nthD bs i) := by
  induction as generalizing bs i with
  | nil => simp at h1
  | cons a arest ih =>
    cases bs with
    | nil => simp at h2
    | cons b brest =>
      cases i with
      | zero => simp [nthD, List.zipWith]
      | succ j =>
        have hj1 : j < arest.length := by simpa using h1
        have hj2 : j < brest.length := by simpa using h2
        simp [nthD, List.zipWith, ih brest j hj1 hj2]

theorem nthD_scanMax (l : List ℚ) (m : ℚ) (i : ℕ) (h : i < l.length) :
    nthD (scanMax m l) i = (l.take (i + 1)).foldl max m := by
  induction l generalizing m i with
  | nil => simp at h
  | cons w rest ih =>
    cases i with
    | zero => simp [scanMax, nthD, List.take_succ_cons]
    | succ j =>
      have hj : j < rest.length := by simpa using h
      simp [scanMax, nthD, List.take_succ_cons, ih (max m w) j hj]

theorem nthD_cummax_zero (w : ℚ) (rest : List ℚ) :
    nthD (cummax (w :: rest)) 0 = w := by
  simp [cummax, nthD]

theorem nthD_cummax_succ (w : ℚ) (rest : List ℚ) (j : ℕ) (h : j < rest.length) :
    nthD (cummax (w :: rest)) (j + 1) = (rest.take (j + 1)).foldl max w := by
  simp [cummax, nthD, nthD_scanMax rest w j h]

theorem le_foldl_max (l : List ℚ) (m : ℚ) : m ≤ l.foldl max m := by
  induction l generalizing m with
  | nil => exact le_refl m
  | cons x rest ih =>
    exact le_trans (le_max_left m x) (ih (max m x))

theorem mem_le_foldl_max (l : List ℚ) (m x : ℚ) (hx : x ∈ l) : x ≤ l.foldl max m := by
  induction l generalizing m with
  | nil => simp at hx
  | cons y rest ih =>
    rcases List.mem_cons.mp hx with h1 | h2
    · subst h1
      rw [List.foldl_cons]
      exact le_trans (le_max_right m x) (le_foldl_max rest (max m x))
    · exact ih (max m y) h2

theorem foldl_max_mem (l : List ℚ) (m : ℚ) : l.foldl max m = m ∨ l.foldl max m ∈ l := by
  induction l generalizing m with
  | nil => exact Or.inl rfl
  | cons y rest ih =>
    rw [List.foldl_cons]
    rcases ih (max m y) with heq | hmem
    · rw [heq]
      rcases max_choice m y with h1 | h2
      · exact Or.inl h1
      · refine Or.inr ?_
        rw [h2]
        exact List.mem_cons_self _ _
    · exact Or.inr (List.mem_cons_of_mem _ hmem)

theorem foldl_min_le (l : List ℚ) (m : ℚ) : l.foldl min m ≤ m := by
  induction l generalizing m with
  | nil => exact le_refl m
  | cons x rest ih =>
    exact le_trans (ih (min m x)) (min_le_left m x)

theorem foldl_min_le_mem (l : List ℚ) (m x : ℚ) (hx : x ∈ l) : l.foldl min m ≤ x := by
  induction l generalizing m with
  | nil => simp at hx
  | cons y rest ih =>
    rcases List.mem_cons.mp hx with h1 | h2
    · subst h1
      rw [List.foldl_cons]
      exact le_trans (foldl_min_le rest (min m x)) (min_le_right m x)
    · exact ih (min m y) h2

theorem foldl_min_mem (l : List ℚ) (m : ℚ) : l.foldl min m = m ∨ l.foldl min m ∈ l := by
  induction l generalizing m with
  | nil => exact Or.inl rfl
  | cons y rest ih =>
    rw [List.foldl_cons]
    rcases ih (min m y) with heq | hmem
    · rw [heq]
      rcases min_choice m y with h1 | h2
      · exact Or.inl h1
      · refine Or.inr ?_
        rw [h2]
        exact List.mem_cons_self _ _
    · exact Or.inr (List.mem_cons_of_mem _ hmem)

theorem seriesMin_le (xs : List ℚ) (m : ℚ) (h : seriesMin xs = some m) :
    ∀ x ∈ xs, m ≤ x := by
  cases xs with
  | nil => simp [seriesMin] at h
  | cons y ys =>
    have hm : m = ys.foldl min y := by
      simpa [seriesMin] using h.symm
    intro x hx
    rcases List.mem_cons.mp hx with h1 | h2
    · rw [hm, h1]
      exact foldl_min_le ys y
    · rw [hm]
      exact foldl_min_le_mem ys y x h2

theorem seriesMin_mem (xs : List ℚ) (m : ℚ) (h : seriesMin xs = some m) : m ∈ xs := by
  cases xs with
  | nil => simp [seriesMin] at h
  | cons y ys =>
    have hm : m = ys.foldl min y := by
      simpa [seriesMin] using h.symm
    rcases foldl_min_mem ys y with heq | hmem
    · rw [hm, heq]
      exact List.mem_cons_self _ _
    · rw [hm]
      exact List.mem_cons_of_mem _ hmem

theorem seriesMax_cons (y : ℚ) (ys : List ℚ) :
    seriesMax (y :: ys) = some (ys.foldl max y) := rfl

/-!
Lemmas about the first-index search shared by `idxmin` and `idxmax`.
-/

theorem firstIdxWhere_eq_some (p : ℚ → Prop) [DecidablePred p] (l : List ℚ) (i : ℕ)
    (h : firstIdxWhere p l = some i) :
    i < l.length ∧ p (nthD l i) ∧ ∀ j, j < i → ¬ p (nthD l j) := by
  induction l generalizing i with
  | nil => simp [firstIdxWhere] at h
  | cons x rest ih =>
    by_cases px : p x
    · rw [firstIdxWhere, if_pos px] at h
      obtain rfl : (0 : ℕ) = i := Option.some.inj h
      exact ⟨Nat.succ_pos _, by simpa [nthD] using px,
        fun j hj => absurd hj (Nat.not_lt_zero j)⟩
    · rw [firstIdxWhere, if_neg px] at h
      cases hrest : firstIdxWhere p rest with
      | none => rw [hrest] at h; simp at h
      | some i2 =>
        rw [hrest] at h
        obtain rfl : i2 + 1 = i := by simpa using h
        obtain ⟨hb, hp2, hfirst⟩ := ih i2 hrest
        refine ⟨by simpa using hb, by simpa [nthD] using hp2, ?_⟩
        intro j hj
        cases j with
        | zero => simpa [nthD] using px
        | succ j2 =>
          have hj2 : j2 < i2 := by omega
          simpa [nthD] using hfirst j2 hj2

theorem firstIdxWhere_isSome (p : ℚ → Prop) [DecidablePred p] (l : List ℚ) (x : ℚ)
    (hx : x ∈ l) (hpx : p x) : ∃ i, firstIdxWhere p l = some i := by
  induction l with
  | nil => simp at hx
  | cons y rest ih =>
    by_cases py : p y
    · exact ⟨0, by rw [firstIdxWhere, if_pos py]⟩
    · rcases List.mem_cons.mp hx with h1 | h2
      · exact absurd (h1 ▸ hpx) py
      · obtain ⟨i, hi⟩ := ih h2
        exact ⟨i + 1, by rw [firstIdxWhere, if_neg py, hi]; rfl⟩

theorem firstIdxWhere_eq_none (p : ℚ → Prop) [DecidablePred p] (l : List ℚ)
    (h : ∀ x ∈ l, ¬ p x) : firstIdxWhere p l = none := by
  induction l with
  | nil => rfl
  | cons y rest ih =>
    rw [firstIdxWhere, if_neg (h y (List.mem_cons_self _ _)),
      ih (fun x hx => h x (List.mem_cons_of_mem _ hx))]
    rfl

theorem firstIdxWhere_append_no_right (p : ℚ → Prop) [DecidablePred p]
    (l1 l2 : List ℚ) (h2 : ∀ x ∈ l2, ¬ p x) :
    firstIdxWhere p (l1 ++ l2) = firstIdxWhere p l1 := by
  induction l1 with
  | nil => simpa using firstIdxWhere_eq_none p l2 h2
  | cons y rest ih =>
    by_cases py : p y
    · rw [List.cons_append, firstIdxWhere, if_pos py, firstIdxWhere, if_pos py]
    · rw [List.cons_append, firstIdxWhere, if_neg py, firstIdxWhere, if_neg py, ih]

theorem nthD_mem_take (l : List ℚ) (i : ℕ) (h : i < l.length) :
    nthD l i ∈ l.take (i + 1) := by
  induction l generalizing i with
  | nil => simp at h
  | cons x rest ih =>
    cases i with
    | zero => simp [List.take_succ_cons, nthD]
    | succ j =>
      have hj : j < rest.length := by simpa using h
      rw [List.take_succ_cons]
      exact List.mem_cons_of_mem _ (by simpa [nthD] using ih j hj)

theorem nthD_mem (l : List ℚ) (i : ℕ) (h : i < l.length) : nthD l i ∈ l := by
  have := nthD_mem_take l i h
  exact List.mem_of_mem_take this

theorem take_succ_nthD (l : List ℚ) (i : ℕ) (h : i < l.length) :
    l.take (i + 1) = l.take i ++ [nthD l i] := by
  induction l generalizing i with
  | nil => simp at h
  | cons x rest ih =>
    cases i with
    | zero => simp [nthD]
    | succ j =>
      have hj : j < rest.length := by simpa using h
      rw [List.take_succ_cons, List.take_succ_cons, ih j hj]
      simp [nthD]

theorem le_cummax_nthD (l : List ℚ) (i : ℕ) (h : i < l.length) :
    nthD l i ≤ nthD (cummax l) i := by
  cases l with
  | nil => simp at h
  | cons w rest =>
    cases i with
    | zero =>
      rw [nthD_cummax_zero]
      exact le_of_eq rfl
    | succ j =>
      have hj : j < rest.length := by simpa using h
      rw [nthD_cummax_succ w rest j hj]
      show nthD (w :: rest) (j + 1) ≤ _
      rw [show nthD (w :: rest) (j + 1) = nthD rest j from rfl]
      exact mem_le_foldl_max _ w _ (nthD_mem_take rest j hj)

/-!
Sign facts about the drawdown path.
-/

theorem nthD_drawdown (rs : List ℚ) (i : ℕ) (hi : i < rs.length) :
    nthD (drawdown rs) i =
      (nthD (cumulative rs) i - nthD (cummax (cumulative rs)) i) /
        nthD (cummax (cumulative rs)) i := by
  unfold drawdown
  exact nthD_zipWith _ _ _ i (by rw [length_cumulative]; exact hi)
    (by rw [length_cummax, length_cumulative]; exact hi)

theorem scanMul_pos (l : List ℚ) (a : ℚ) (ha : 0 < a) (h : ∀ r ∈ l, -1 < r) :
    ∀ x ∈ scanMul a l, 0 < x := by
  induction l generalizing a with
  | nil => intro x hx; simp [scanMul] at hx
  | cons r rest ih =>
    intro x hx
    have hr : (0 : ℚ) < 1 + r := by
      have := h r (List.mem_cons_self _ _)
      linarith
    have hpos : 0 < a * (1 + r) := mul_pos ha hr
    rw [scanMul] at hx
    rcases List.mem_cons.mp hx with h1 | h2
    · rw [h1]
      exact hpos
    · exact ih (a * (1 + r)) hpos (fun r2 hr2 => h r2 (List.mem_cons_of_mem _ hr2)) x h2

theorem drawdown_nthD_nonpos (rs : List ℚ) (h : ∀ r ∈ rs, -1 < r) (i : ℕ)
    (hi : i < rs.length) : nthD (drawdown rs) i ≤ 0 := by
  have hwlen : i < (cumulative rs).length := by
    rw [length_cumulative]
    exact hi
  have hw : 0 < nthD (cumulative rs) i := by
    refine scanMul_pos rs 1 one_pos h _ ?_
    simpa [cumulative] using nthD_mem _ i hwlen
  have hle := le_cummax_nthD (cumulative rs) i hwlen
  have hp : 0 < nthD (cummax (cumulative rs)) i := lt_of_lt_of_le hw hle
  rw [nthD_drawdown rs i hi]
  exact div_nonpos_of_nonpos_of_nonneg (sub_nonpos.mpr hle) hp.le

/-- C4 (amended): when every return exceeds -1 (so the wealth path stays
positive), every per-time-step drawdown value is at most 0, and hence the
reported max_drawdown statistic — the minimum drawdown over the path — is
at most 0. -/
theorem drawdown_nonpositive (rs : List ℚ) (h : ∀ r ∈ rs, -1 < r) :
    (∀ i, i < rs.length → nthD (drawdown rs) i ≤ 0) ∧
    (∀ m, seriesMin (drawdown rs) = some m → m ≤ 0) := by
  refine ⟨fun i hi => drawdown_nthD_nonpos rs h i hi, fun m hm => ?_⟩
  have hmem := seriesMin_mem _ m hm
  obtain ⟨i, hlt, hEq⟩ := List.mem_iff_getElem.mp hmem
  have hi : i < rs.length := by
    rw [← length_drawdown rs]
    exact hlt
  have hval : nthD (drawdown rs) i = m := by
    rw [← getD_eq_nthD, List.getD_eq_getElem _ _ hlt, hEq]
  rw [← hval]
  exact drawdown_nthD_nonpos rs h i hi

/-- C4 witness: the series [0.1, -0.2] satisfies the amended hypothesis
and its drawdown path and minimum are nonpositive. -/
theorem drawdown_nonpositive_witness :
    (∀ r ∈ [(1:ℚ)/10, -1/5], -1 < r) ∧
    ((∀ i, i < ([(1:ℚ)/10, -1/5]).length → nthD (drawdown [(1:ℚ)/10, -1/5]) i ≤ 0) ∧
     (∀ m, seriesMin (drawdown [(1:ℚ)/10, -1/5]) = some m → m ≤ 0)) :=
  ⟨by norm_num, drawdown_nonpositive _ (by norm_num)⟩

/-- C4 counterexample: with the unrestricted return series [-2, 0.5] the
wealth path is [-1, -1.5] and the drawdown at step 1 is +0.5 > 0, so
"every per-time-step drawdown value ≤ 0 for every input return series"
is false as stated (the claim insists on no restriction on return
values). -/
theorem drawdown_positive_on_negative_wealth :
    drawdown [-2, 1/2] = [0, 1/2] ∧ ¬ ((1/2 : ℚ) ≤ 0) := by
  constructor
  · norm_num [drawdown, cumulative, scanMul, cummax, scanMax, max_def, List.zipWith]
  · norm_num

/-!
The reported peak date of the drawdown details.
-/

theorem code_peak_eq (rs : List ℚ) (t : ℕ) (hidx : idxmin (drawdown rs) = some t) :
    code_peak rs = idxmax ((cumulative rs).take t) := by
  unfold code_peak colDetail
  rw [hidx]
  cases hmax : idxmax ((cumulative rs).take t) <;> simp [hmax]

/-- C3 (amended): for every return series column whose trough (the first
index attaining the minimum drawdown) is positive — equivalently, whose
minimum drawdown is strictly negative; on a column that never declines
the source raises instead of reporting — the reported peak date is the
FIRST index at or before the trough at which the cumulative wealth equals
the running peak active at the trough. -/
theorem peak_date_first_at_running_peak (rs : List ℚ) (t : ℕ)
    (h1 : idxmin (drawdown rs) = some t) (h2 : 0 < t) :
    code_peak rs = spec_peak_first rs t ∧ ∃ pk, code_peak rs = some pk := by
  obtain ⟨m, hmin, h1f⟩ : ∃ m, seriesMin (drawdown rs) = some m ∧
      firstIdxWhere (fun v => v = m) (drawdown rs) = some t := by
    unfold idxmin at h1
    cases hmin2 : seriesMin (drawdown rs) with
    | none => rw [hmin2] at h1; exact absurd h1 (by simp)
    | some m2 => rw [hmin2] at h1; exact ⟨m2, rfl, h1⟩
  obtain ⟨htlen, hped, hfirst⟩ := firstIdxWhere_eq_some _ _ t h1f
  have htrs : t < rs.length := by
    rw [← length_drawdown rs]
    exact htlen
  have hwslen : 0 < (cumulative rs).length := by
    rw [length_cumulative]
    omega
  obtain ⟨w0, wrest, hcons⟩ :=
    List.exists_cons_of_ne_nil (List.ne_nil_of_length_pos hwslen)
  obtain ⟨t', rfl⟩ : ∃ t2, t = t2 + 1 := ⟨t - 1, by omega⟩
  have ht' : t' < wrest.length := by
    have hh : t' + 1 < (cumulative rs).length := by
      rw [length_cumulative]
      exact htrs
    rw [hcons] at hh
    simpa using hh
  have hdd0 : nthD (drawdown rs) 0 = 0 := by
    have h0rs : 0 < rs.length := by omega
    rw [nthD_drawdown rs 0 h0rs, hcons, nthD_cummax_zero]
    show (w0 - w0) / w0 = 0
    rw [sub_self, zero_div]
  have hm0 : m ≤ 0 := by
    have hmem0 : 0 < (drawdown rs).length := by omega
    have hh := seriesMin_le _ m hmin (nthD (drawdown rs) 0) (nthD_mem _ 0 hmem0)
    rw [hdd0] at hh
    exact hh
  have hmne : m ≠ 0 := by
    intro he
    have hh := hfirst 0 (Nat.succ_pos t')
    rw [hdd0] at hh
    exact hh he.symm
  have hmneg : m < 0 := lt_of_le_of_ne hm0 hmne
  set wt := nthD (cumulative rs) (t' + 1) with hwt
  set pt := nthD (cummax (cumulative rs)) (t' + 1) with hptd
  have hform : (wt - pt) / pt = m := by
    rw [hwt, hptd, ← nthD_drawdown rs (t' + 1) htrs]
    exact hped
  have hwle : wt ≤ pt := by
    rw [hwt, hptd]
    exact le_cummax_nthD (cumulative rs) (t' + 1) (by rw [length_cumulative]; exact htrs)
  have hptpos : 0 < pt := by
    rcases lt_trichotomy pt 0 with hlt | heq | hgt
    · exfalso
      have hh : 0 ≤ (wt - pt) / pt := by
        rw [div_nonneg_iff]
        exact Or.inr ⟨sub_nonpos.mpr hwle, hlt.le⟩
      rw [hform] at hh
      linarith
    · exfalso
      rw [← hform, heq, div_zero] at hmneg
      exact lt_irrefl 0 hmneg
    · exact hgt
  have hwlt : wt < pt := by
    rcases eq_or_lt_of_le hwle with heq | hlt
    · exfalso
      rw [← hform, heq, sub_self, zero_div] at hmneg
      exact lt_irrefl 0 hmneg
    · exact hlt
  have hptval : pt = (wrest.take (t' + 1)).foldl max w0 := by
    rw [hptd, hcons]
    exact nthD_cummax_succ w0 wrest t' ht'
  have hwtval : wt = nthD wrest t' := by
    rw [hwt, hcons]
    rfl
  set M := (wrest.take t').foldl max w0 with hM
  have htake_w : wrest.take (t' + 1) = wrest.take t' ++ [nthD wrest t'] :=
    take_succ_nthD wrest t' ht'
  have hPmax : pt = max M (nthD wrest t') := by
    rw [hptval, htake_w, List.foldl_append, ← hM]
    rfl
  have hPM : pt = M := by
    rcases max_choice M (nthD wrest t') with hc1 | hc2
    · rw [hPmax, hc1]
    · exfalso
      rw [hwtval, ← hc2, ← hPmax] at hwlt
      exact lt_irrefl pt hwlt
  have hwtM : nthD wrest t' < M := by
    rw [← hPM, ← hwtval]
    exact hwlt
  have htake1 : (cumulative rs).take (t' + 1) = w0 :: wrest.take t' := by
    rw [hcons, List.take_succ_cons]
  have hsmax : seriesMax ((cumulative rs).take (t' + 1)) = some M := by
    rw [htake1, seriesMax_cons, hM]
  have hMmem : M ∈ w0 :: wrest.take t' := by
    have hh := foldl_max_mem (wrest.take t') w0
    rw [← hM] at hh
    rcases hh with heq | hmem
    · rw [heq]
      exact List.mem_cons_self _ _
    · exact List.mem_cons_of_mem _ hmem
  obtain ⟨pk, hpk⟩ :=
    firstIdxWhere_isSome (fun v => v = M) (w0 :: wrest.take t') M hMmem rfl
  have hidxmax : idxmax ((cumulative rs).take (t' + 1)) = some pk := by
    unfold idxmax
    rw [hsmax]
    show firstIdxWhere (fun v => v = M) ((cumulative rs).take (t' + 1)) = some pk
    rw [htake1]
    exact hpk
  have hcode : code_peak rs = some pk := by
    rw [code_peak_eq rs (t' + 1) h1, hidxmax]
  have hgd : (cummax (cumulative rs)).getD (t' + 1) 0 = M := by
    rw [getD_eq_nthD, ← hptd, hPM]
  have hnolast : ∀ x ∈ [nthD wrest t'], ¬ (x = M) := by
    intro x hx
    rw [List.mem_singleton] at hx
    rw [hx]
    exact ne_of_lt hwtM
  have htake2 : (cumulative rs).take (t' + 1 + 1) =
      (w0 :: wrest.take t') ++ [nthD wrest t'] := by
    rw [hcons, List.take_succ_cons, htake_w]
    rfl
  have hspec : spec_peak_first rs (t' + 1) = some pk := by
    unfold spec_peak_first
    rw [hgd, htake2, firstIdxWhere_append_no_right _ _ _ hnolast]
    exact hpk
  exact ⟨hcode.trans hspec.symm, ⟨pk, hcode⟩⟩

/-- C3 counterexample: for the series [0.1, 0, -0.2] the trough is index
2 and the wealth path [1.1, 1.1, 0.88] attains the running peak 1.1 at
indices 0 and 1.  The source (idxmax = first occurrence) reports peak
date 0, whereas the claim's "last index at or before the trough" reading
demands 1. -/
theorem peak_date_not_last :
    idxmin (drawdown [1/10, 0, -1/5]) = some 2 ∧
    code_peak [1/10, 0, -1/5] = some 0 ∧
    spec_peak_last [1/10, 0, -1/5] 2 = some 1 ∧
    code_peak [1/10, 0, -1/5] ≠ spec_peak_last [1/10, 0, -1/5] 2 := by
  have hc : code_peak [1/10, 0, -1/5] = some 0 := by
    norm_num [code_peak, colDetail, idxmin, idxmax, seriesMin, seriesMax, firstIdxWhere,
      drawdown, cumulative, scanMul, cummax, scanMax, max_def, min_def, List.foldl,
      List.zipWith]
  have hs : spec_peak_last [1/10, 0, -1/5] 2 = some 1 := by
    norm_num [spec_peak_last, lastIdxWhere, firstIdxWhere, drawdown, cumulative,
      scanMul, cummax, scanMax, max_def, min_def, List.foldl, List.zipWith]
  refine ⟨?_, hc, hs, ?_⟩
  · norm_num [idxmin, seriesMin, firstIdxWhere, drawdown, cumulative, scanMul, cummax,
      scanMax, max_def, min_def, List.foldl, List.zipWith]
  · rw [hc, hs]
    simp

/-- C3 witness: for the series [0.1, -0.2, 0.05] the trough is index 1
and the reported peak date coincides with the first index attaining the
running peak. -/
theorem peak_date_first_witness :
    idxmin (drawdown [1/10, -1/5, 1/20]) = some 1 ∧ 0 < 1 ∧
    (code_peak [1/10, -1/5, 1/20] = spec_peak_first [1/10, -1/5, 1/20] 1 ∧
     ∃ pk, code_peak [1/10, -1/5, 1/20] = some pk) :=
  ⟨by norm_num [idxmin, seriesMin, firstIdxWhere, drawdown, cumulative, scanMul, cummax,
      scanMax, max_def, min_def, List.foldl, List.zipWith],
   Nat.one_pos,
   peak_date_first_at_running_peak [1/10, -1/5, 1/20] 1
     (by norm_num [idxmin, seriesMin, firstIdxWhere, drawdown, cumulative, scanMul,
        cummax, scanMax, max_def, min_def, List.foldl, List.zipWith])
     Nat.one_pos⟩

/-- C5 witness: the prices variant fails on a concrete accumulator. -/
theorem max_drawdown_prices_not_implemented_witness :
    (ReturnMetrics.mk [("a", [(0:ℚ)])] 1 []).max_drawdown "max_drawdown" false
        "prices" =
      Except.error "max_drawdown with data_type='prices' is not implemented yet." ∧
    ∀ B : ReturnMetrics,
      (ReturnMetrics.mk [("a", [(0:ℚ)])] 1 []).max_drawdown "max_drawdown" false
        "prices" ≠ Except.ok B :=
  max_drawdown_prices_not_implemented _ _ _
